import Mathlib

/-!
Verification of the physics core of the Solara solar-system simulator.

The development shallowly embeds, over exact real arithmetic, the functions
of `physics/nbody.py`, `physics/pn1.py`, `physics/diagnostics.py` and
`physics/elements.py`, together with the numeric constants of
`constants.py`, and proves the specified properties of the Force Model,
the velocity-Verlet Integrator, the post-Newtonian correction, the energy
diagnostic and the element conversions.
-/

namespace Solara

/-- 3-component real vector, the embedding of a `numpy` shape-(3,) array.
Using a product type gives the componentwise additive/module structure. -/
abbrev Vec3 : Type := ℝ × ℝ × ℝ

/-- Dot product of two 3-vectors (`np.dot`). -/
def dot (a b : Vec3) : ℝ := a.1 * b.1 + a.2.1 * b.2.1 + a.2.2 * b.2.2

/-- Cross product of two 3-vectors (`np.cross`). -/
def cross (a b : Vec3) : Vec3 :=
  (a.2.1 * b.2.2 - a.2.2 * b.2.1,
   a.2.2 * b.1 - a.1 * b.2.2,
   a.1 * b.2.1 - a.2.1 * b.1)

/-- Euclidean norm of a 3-vector (`np.linalg.norm`). -/
noncomputable def norm3 (a : Vec3) : ℝ := Real.sqrt (dot a a)

/-- One point-mass celestial object: the physics-relevant fields of the
`Body` class of `model/body.py` (`mass`, `pos`, `vel`, `acc`; the
display-only fields are ignored by the physics engine). -/
@[ext]
structure Body where
  mass : ℝ
  pos : Vec3
  vel : Vec3
  acc : Vec3

instance : Inhabited Body := ⟨⟨0, 0, 0, 0⟩⟩

/-- `constants.py`: gravitational constant in AU/yr/M_sun units, `4·π²`. -/
noncomputable def G : ℝ := 4 * Real.pi ^ 2

/-- `constants.py`: softening length `EPS_ACCEL = 1e-5` AU. -/
noncomputable def EPS_ACCEL : ℝ := 1e-5

/-- `constants.py`: the speed of light in AU per year,
`C_SI * SECONDS_PER_YEAR / AU_IN_METERS`. -/
noncomputable def C_AU_PER_YR : ℝ := 299792458.0 * (86400.0 * 365.25) / 149597870700.0

/-- Mass of the `i`-th body of a list (reads past the end return the
default body; every use is guarded by an index bound). -/
def massOf (bs : List Body) (i : ℕ) : ℝ := (bs.getD i default).mass

/-- Position of the `i`-th body of a list. -/
def posOf (bs : List Body) (i : ℕ) : Vec3 := (bs.getD i default).pos

/-- Velocity of the `i`-th body of a list. -/
def velOf (bs : List Body) (i : ℕ) : Vec3 := (bs.getD i default).vel

/-- Acceleration of the `i`-th body of a list. -/
def accOf (bs : List Body) (i : ℕ) : Vec3 := (bs.getD i default).acc

/-- The index pairs visited by the double loop
`for i in range(n): for j in range(i+1, n)` of `compute_accelerations`
(and of the potential-energy loop of `total_energy`), in loop order. -/
def loopPairs (n : ℕ) : List (ℕ × ℕ) :=
  (List.range n).flatMap fun i => (List.range' (i + 1) (n - (i + 1))).map fun j => (i, j)

/-- Softened squared distance between bodies `i` and `j` of a list:
`dist2 = |pos_j - pos_i|^2 + EPS_ACCEL^2` of `compute_accelerations`. -/
noncomputable def dist2 (bs : List Body) (i j : ℕ) : ℝ :=
  dot (posOf bs j - posOf bs i) (posOf bs j - posOf bs i) + EPS_ACCEL ^ 2

/-- The body of the inner loop of `compute_accelerations`: given the
acceleration table accumulated so far, add the pair `(i, j)`'s
contributions `a_i += G*m_j*r_ij*inv_r3` and `a_j += -G*m_i*r_ij*inv_r3`,
where `inv_r3 = 1/(dist2*sqrt(dist2))`. -/
noncomputable def accPairUpdate (bs : List Body) (a : ℕ → Vec3) (p : ℕ × ℕ) : ℕ → Vec3 :=
  let rij : Vec3 := posOf bs p.2 - posOf bs p.1
  let d2 : ℝ := dist2 bs p.1 p.2
  let inv_r3 : ℝ := 1 / (d2 * Real.sqrt d2)
  let ai : Vec3 := (G * massOf bs p.2 * inv_r3) • rij
  let aj : Vec3 := (-(G * massOf bs p.1) * inv_r3) • rij
  let a1 : ℕ → Vec3 := Function.update a p.1 (a p.1 + ai)
  Function.update a1 p.2 (a1 p.2 + aj)

/-- The acceleration table produced by `compute_accelerations`: reset every
acceleration to zero, then run the pairwise double loop. -/
noncomputable def accTable (bs : List Body) : ℕ → Vec3 :=
  (loopPairs bs.length).foldl (accPairUpdate bs) fun _ => 0

/-- Write acceleration `f (k + i)` into the `i`-th body of a list
(the in-place `b.acc` stores of `compute_accelerations`). -/
def setAccs (f : ℕ → Vec3) : ℕ → List Body → List Body
  | _, [] => []
  | k, b :: bs => { b with acc := f k } :: setAccs f (k + 1) bs

/-- `compute_accelerations(bodies)` of `physics/nbody.py`: Newtonian
pairwise softened gravity, overwriting every body's acceleration. -/
noncomputable def compute_accelerations (bs : List Body) : List Body :=
  setAccs (accTable bs) 0 bs

section BasicLemmas

@[simp] theorem setAccs_length (f : ℕ → Vec3) (k : ℕ) (bs : List Body) :
    (setAccs f k bs).length = bs.length := by
  induction bs generalizing k with
  | nil => rfl
  | cons b bs ih => simp [setAccs, ih]

theorem setAccs_getD (f : ℕ → Vec3) (k : ℕ) (bs : List Body) (i : ℕ) (h : i < bs.length) :
    (setAccs f k bs).getD i default = { bs.getD i default with acc := f (k + i) } := by
  induction bs generalizing k i with
  | nil => simp at h
  | cons b bs ih =>
    cases i with
    | zero => simp [setAccs]
    | succ i =>
      simp only [setAccs, List.getD_cons_succ]
      rw [ih (k + 1) i (by simpa using h)]
      have hk : k + 1 + i = k + (i + 1) := by omega
      rw [hk]

@[simp] theorem compute_accelerations_length (bs : List Body) :
    (compute_accelerations bs).length = bs.length := by
  simp [compute_accelerations]

theorem compute_accelerations_getD (bs : List Body) (i : ℕ) (h : i < bs.length) :
    (compute_accelerations bs).getD i default
      = { bs.getD i default with acc := accTable bs i } := by
  simpa using setAccs_getD (accTable bs) 0 bs i h

@[simp] theorem massOf_compute_accelerations (bs : List Body) (i : ℕ) (h : i < bs.length) :
    massOf (compute_accelerations bs) i = massOf bs i := by
  unfold massOf
  rw [compute_accelerations_getD bs i h]

@[simp] theorem posOf_compute_accelerations (bs : List Body) (i : ℕ) (h : i < bs.length) :
    posOf (compute_accelerations bs) i = posOf bs i := by
  unfold posOf
  rw [compute_accelerations_getD bs i h]

@[simp] theorem velOf_compute_accelerations (bs : List Body) (i : ℕ) (h : i < bs.length) :
    velOf (compute_accelerations bs) i = velOf bs i := by
  unfold velOf
  rw [compute_accelerations_getD bs i h]

theorem accOf_compute_accelerations (bs : List Body) (i : ℕ) (h : i < bs.length) :
    accOf (compute_accelerations bs) i = accTable bs i := by
  unfold accOf
  rw [compute_accelerations_getD bs i h]

end BasicLemmas

section AccSum

/-- Contribution of the loop pair `p` to the acceleration of slot `k`:
`a_i`-term when `k = p.1`, `a_j`-term when `k = p.2`. -/
noncomputable def pairContrib (bs : List Body) (k : ℕ) (p : ℕ × ℕ) : Vec3 :=
  (if k = p.1 then
    (G * massOf bs p.2 * (1 / (dist2 bs p.1 p.2 * Real.sqrt (dist2 bs p.1 p.2))))
      • (posOf bs p.2 - posOf bs p.1) else 0)
  + (if k = p.2 then
    (-(G * massOf bs p.1) * (1 / (dist2 bs p.1 p.2 * Real.sqrt (dist2 bs p.1 p.2))))
      • (posOf bs p.2 - posOf bs p.1) else 0)

theorem accPairUpdate_apply (bs : List Body) (a : ℕ → Vec3) (p : ℕ × ℕ) (k : ℕ) :
    accPairUpdate bs a p k = a k + pairContrib bs k p := by
  obtain ⟨i, j⟩ := p
  unfold accPairUpdate pairContrib
  by_cases h2 : k = j
  · subst h2
    by_cases h1 : k = i
    · subst h1
      simp [Function.update_apply]
      try abel
    · simp [Function.update_apply, h1, Ne.symm h1]
      try abel
  · by_cases h1 : k = i
    · subst h1
      simp [Function.update_apply, h2, Ne.symm h2]
    · simp [Function.update_apply, h1, h2, Ne.symm h1, Ne.symm h2]

theorem foldl_accPairUpdate (bs : List Body) (ps : List (ℕ × ℕ)) (a : ℕ → Vec3) (k : ℕ) :
    (ps.foldl (accPairUpdate bs) a) k = a k + (ps.map (pairContrib bs k)).sum := by
  induction ps generalizing a with
  | nil => simp
  | cons p ps ih =>
    simp only [List.foldl_cons, List.map_cons, List.sum_cons]
    rw [ih, accPairUpdate_apply]
    abel

theorem mem_loopPairs (n : ℕ) (p : ℕ × ℕ) : p ∈ loopPairs n ↔ p.1 < p.2 ∧ p.2 < n := by
  obtain ⟨i, j⟩ := p
  simp only [loopPairs, List.mem_flatMap, List.mem_map, List.mem_range, List.mem_range',
    Prod.mk.injEq]
  constructor
  · rintro ⟨i', hi', j', ⟨t, ht, rfl⟩, rfl, rfl⟩
    omega
  · rintro ⟨h1, h2⟩
    exact ⟨i, by omega, j, ⟨j - (i + 1), by omega, by omega⟩, rfl, rfl⟩

theorem loopPairs_nodup (n : ℕ) : (loopPairs n).Nodup := by
  unfold loopPairs
  rw [List.nodup_flatMap]
  constructor
  · intro i _
    exact (List.nodup_range' (i + 1) (n - (i + 1))).map (fun a b h => congrArg Prod.snd h)
  · have hpw : (List.range n).Pairwise (· < ·) := List.pairwise_lt_range n
    refine hpw.imp ?_
    intro i i' hlt x hx hx'
    simp only [List.mem_map] at hx hx'
    obtain ⟨j, _, rfl⟩ := hx
    obtain ⟨j', _, h⟩ := hx'
    exact absurd (congrArg Prod.fst h).symm (by simp; omega)

/-- The unordered index pairs `{(i, j) : i < j < n}` as a finite set. -/
def pairsFinset (n : ℕ) : Finset (ℕ × ℕ) :=
  (Finset.range n ×ˢ Finset.range n).filter fun p => p.1 < p.2

theorem toFinset_loopPairs (n : ℕ) : (loopPairs n).toFinset = pairsFinset n := by
  ext p
  simp only [List.mem_toFinset, mem_loopPairs, pairsFinset, Finset.mem_filter,
    Finset.mem_product, Finset.mem_range]
  omega

theorem sum_loopPairs {M : Type*} [AddCommMonoid M] (n : ℕ) (f : ℕ × ℕ → M) :
    ((loopPairs n).map f).sum = ∑ p ∈ pairsFinset n, f p := by
  rw [← List.sum_toFinset f (loopPairs_nodup n), toFinset_loopPairs]

theorem dist2_symm (bs : List Body) (i j : ℕ) : dist2 bs i j = dist2 bs j i := by
  unfold dist2 dot
  simp only [Prod.fst_sub, Prod.snd_sub]
  ring

theorem dist2_pos (bs : List Body) (i j : ℕ) : 0 < dist2 bs i j := by
  unfold dist2 dot EPS_ACCEL
  have h1 := mul_self_nonneg (posOf bs j - posOf bs i).1
  have h2 := mul_self_nonneg (posOf bs j - posOf bs i).2.1
  have h3 := mul_self_nonneg (posOf bs j - posOf bs i).2.2
  nlinarith

theorem rpow_three_halves {x : ℝ} (hx : 0 < x) :
    x ^ ((3 : ℝ) / 2) = x * Real.sqrt x := by
  rw [show ((3 : ℝ) / 2) = 1 + 1 / 2 by norm_num, Real.rpow_add hx, Real.rpow_one,
    ← Real.sqrt_eq_rpow]

theorem sumsum_ite_left {M : Type*} [AddCommMonoid M] (n k : ℕ) (hk : k < n)
    (A : ℕ → ℕ → M) :
    (∑ i ∈ Finset.range n, ∑ j ∈ Finset.range n, if k = i then A i j else 0)
      = ∑ j ∈ Finset.range n, A k j := by
  have h1 : ∀ i ∈ Finset.range n,
      (∑ j ∈ Finset.range n, if k = i then A i j else 0)
        = (if k = i then ∑ j ∈ Finset.range n, A i j else 0) := by
    intro i _
    split_ifs <;> simp
  rw [Finset.sum_congr rfl h1, Finset.sum_ite_eq, if_pos (Finset.mem_range.mpr hk)]

theorem sumsum_ite_right {M : Type*} [AddCommMonoid M] (n k : ℕ) (hk : k < n)
    (B : ℕ → ℕ → M) :
    (∑ i ∈ Finset.range n, ∑ j ∈ Finset.range n, if k = j then B i j else 0)
      = ∑ i ∈ Finset.range n, B i k := by
  refine Finset.sum_congr rfl fun i _ => ?_
  rw [Finset.sum_ite_eq, if_pos (Finset.mem_range.mpr hk)]

/-- Closed form of the acceleration table: body `k` receives exactly the
softened Newtonian sum over all other bodies. -/
theorem accTable_eq_sum (bs : List Body) (k : ℕ) (hk : k < bs.length) :
    accTable bs k = ∑ j ∈ (Finset.range bs.length).erase k,
      (G * massOf bs j / dist2 bs k j ^ ((3 : ℝ) / 2)) • (posOf bs j - posOf bs k) := by
  set n := bs.length with hn
  have hfold : accTable bs k = ((loopPairs n).map (pairContrib bs k)).sum := by
    unfold accTable
    rw [foldl_accPairUpdate]
    simp
  rw [hfold, sum_loopPairs]
  unfold pairsFinset
  rw [Finset.sum_filter, Finset.sum_product]
  have hsplit : ∀ i j : ℕ,
      (if i < j then pairContrib bs k (i, j) else 0)
        = (if k = i then (if i < j then
            (G * massOf bs j * (1 / (dist2 bs i j * Real.sqrt (dist2 bs i j))))
              • (posOf bs j - posOf bs i) else 0) else 0)
        + (if k = j then (if i < j then
            (-(G * massOf bs i) * (1 / (dist2 bs i j * Real.sqrt (dist2 bs i j))))
              • (posOf bs j - posOf bs i) else 0) else 0) := by
    intro i j
    unfold pairContrib
    split_ifs <;> simp
  calc (∑ i ∈ Finset.range n, ∑ j ∈ Finset.range n,
          if i < j then pairContrib bs k (i, j) else 0)
      = (∑ i ∈ Finset.range n, ∑ j ∈ Finset.range n,
          ((if k = i then (if i < j then
            (G * massOf bs j * (1 / (dist2 bs i j * Real.sqrt (dist2 bs i j))))
              • (posOf bs j - posOf bs i) else 0) else 0)
          + (if k = j then (if i < j then
            (-(G * massOf bs i) * (1 / (dist2 bs i j * Real.sqrt (dist2 bs i j))))
              • (posOf bs j - posOf bs i) else 0) else 0))) := by
        exact Finset.sum_congr rfl fun i _ => Finset.sum_congr rfl fun j _ => hsplit i j
    _ = (∑ i ∈ Finset.range n, ∑ j ∈ Finset.range n,
          (if k = i then (if i < j then
            (G * massOf bs j * (1 / (dist2 bs i j * Real.sqrt (dist2 bs i j))))
              • (posOf bs j - posOf bs i) else 0) else 0))
        + (∑ i ∈ Finset.range n, ∑ j ∈ Finset.range n,
          (if k = j then (if i < j then
            (-(G * massOf bs i) * (1 / (dist2 bs i j * Real.sqrt (dist2 bs i j))))
              • (posOf bs j - posOf bs i) else 0) else 0)) := by
        rw [← Finset.sum_add_distrib]
        exact Finset.sum_congr rfl fun i _ => Finset.sum_add_distrib
    _ = (∑ j ∈ Finset.range n, if k < j then
            (G * massOf bs j * (1 / (dist2 bs k j * Real.sqrt (dist2 bs k j))))
              • (posOf bs j - posOf bs k) else 0)
        + (∑ i ∈ Finset.range n, if i < k then
            (-(G * massOf bs i) * (1 / (dist2 bs i k * Real.sqrt (dist2 bs i k))))
              • (posOf bs k - posOf bs i) else 0) := by
        rw [sumsum_ite_left n k hk, sumsum_ite_right n k hk]
    _ = ∑ j ∈ Finset.range n,
          ((if k < j then
            (G * massOf bs j * (1 / (dist2 bs k j * Real.sqrt (dist2 bs k j))))
              • (posOf bs j - posOf bs k) else 0)
          + (if j < k then
            (-(G * massOf bs j) * (1 / (dist2 bs j k * Real.sqrt (dist2 bs j k))))
              • (posOf bs k - posOf bs j) else 0)) := by
        rw [Finset.sum_add_distrib]
    _ = ∑ j ∈ Finset.range n,
          (if j ≠ k then
            (G * massOf bs j / dist2 bs k j ^ ((3 : ℝ) / 2)) • (posOf bs j - posOf bs k)
          else 0) := by
        refine Finset.sum_congr rfl fun j _ => ?_
        rcases lt_trichotomy j k with hjk | hjk | hjk
        · rw [if_neg (by omega), if_pos hjk, if_pos (by omega), zero_add,
            dist2_symm bs j k, rpow_three_halves (dist2_pos bs k j),
            neg_mul, neg_smul, ← smul_neg, neg_sub]
          congr 1
          ring
        · subst hjk
          simp
        · rw [if_pos hjk, if_neg (by omega), if_pos (by omega), add_zero,
            rpow_three_halves (dist2_pos bs k j)]
          congr 1
          ring
    _ = ∑ j ∈ (Finset.range n).erase k,
          (G * massOf bs j / dist2 bs k j ^ ((3 : ℝ) / 2)) • (posOf bs j - posOf bs k) := by
        rw [← Finset.filter_ne', Finset.sum_filter]

end AccSum

section AccCongr

theorem accPairUpdate_congr (bs bs' : List Body) (a : ℕ → Vec3) (p : ℕ × ℕ)
    (hm1 : massOf bs' p.1 = massOf bs p.1) (hm2 : massOf bs' p.2 = massOf bs p.2)
    (hp1 : posOf bs' p.1 = posOf bs p.1) (hp2 : posOf bs' p.2 = posOf bs p.2) :
    accPairUpdate bs' a p = accPairUpdate bs a p := by
  unfold accPairUpdate dist2
  rw [hm1, hm2, hp1, hp2]

/-- `compute_accelerations` reads only masses and positions: two body lists
agreeing on those produce the same acceleration table. -/
theorem accTable_congr (bs bs' : List Body) (hlen : bs'.length = bs.length)
    (hmp : ∀ j, j < bs.length → massOf bs' j = massOf bs j ∧ posOf bs' j = posOf bs j) :
    accTable bs' = accTable bs := by
  unfold accTable
  rw [hlen]
  have key : ∀ (ps : List (ℕ × ℕ)) (a : ℕ → Vec3),
      (∀ p ∈ ps, p.1 < bs.length ∧ p.2 < bs.length) →
      ps.foldl (accPairUpdate bs') a = ps.foldl (accPairUpdate bs) a := by
    intro ps
    induction ps with
    | nil => intro a _; rfl
    | cons p ps ih =>
      intro a hmem
      have hp := hmem p (List.mem_cons_self p ps)
      simp only [List.foldl_cons]
      rw [accPairUpdate_congr bs bs' a p (hmp p.1 hp.1).1 (hmp p.2 hp.2).1
            (hmp p.1 hp.1).2 (hmp p.2 hp.2).2,
          ih _ fun q hq => hmem q (List.mem_cons_of_mem _ hq)]
  exact key (loopPairs bs.length) _ fun p hp => by
    have := (mem_loopPairs bs.length p).mp hp
    omega

end AccCongr

/-- C2: after `compute_accelerations(bodies)` each body `i`'s acceleration
equals the sum over all `j ≠ i` of `G·m_j·(pos_j − pos_i) /
(|pos_j − pos_i|² + ε_accel²)^{3/2}`, and the result depends only on the
bodies' masses and positions (stored accelerations never influence it). -/
theorem compute_accelerations_pairwise_sum (bs bs' : List Body) (i : ℕ)
    (h : i < bs.length) (hlen : bs'.length = bs.length)
    (hmp : ∀ j, j < bs.length → massOf bs' j = massOf bs j ∧ posOf bs' j = posOf bs j) :
    accOf (compute_accelerations bs) i
      = (∑ j ∈ (Finset.range bs.length).erase i,
          (G * massOf bs j /
            (dot (posOf bs j - posOf bs i) (posOf bs j - posOf bs i) + EPS_ACCEL ^ 2)
              ^ ((3 : ℝ) / 2)) • (posOf bs j - posOf bs i))
    ∧ accOf (compute_accelerations bs') i = accOf (compute_accelerations bs) i := by
  constructor
  · rw [accOf_compute_accelerations bs i h, accTable_eq_sum bs i h]
    rfl
  · rw [accOf_compute_accelerations bs i h,
      accOf_compute_accelerations bs' i (by omega), accTable_congr bs bs' hlen hmp]

/-- Witness for C2: a concrete two-body system, and a second list with the
same masses and positions but different velocities and accelerations. -/
theorem compute_accelerations_pairwise_sum_witness :
    (0 : ℕ) < ([⟨1, (0, 0, 0), (0, 0, 0), (7, 7, 7)⟩,
                ⟨2, (1, 0, 0), (0, 1, 0), (0, 0, 0)⟩] : List Body).length
    ∧ (accOf (compute_accelerations
          [⟨1, (0, 0, 0), (0, 0, 0), (7, 7, 7)⟩, ⟨2, (1, 0, 0), (0, 1, 0), (0, 0, 0)⟩]) 0
        = (∑ j ∈ (Finset.range ([⟨1, (0, 0, 0), (0, 0, 0), (7, 7, 7)⟩,
              ⟨2, (1, 0, 0), (0, 1, 0), (0, 0, 0)⟩] : List Body).length).erase 0,
            (G * massOf [⟨1, (0, 0, 0), (0, 0, 0), (7, 7, 7)⟩,
                ⟨2, (1, 0, 0), (0, 1, 0), (0, 0, 0)⟩] j /
              (dot (posOf [⟨1, (0, 0, 0), (0, 0, 0), (7, 7, 7)⟩,
                  ⟨2, (1, 0, 0), (0, 1, 0), (0, 0, 0)⟩] j
                  - posOf [⟨1, (0, 0, 0), (0, 0, 0), (7, 7, 7)⟩,
                      ⟨2, (1, 0, 0), (0, 1, 0), (0, 0, 0)⟩] 0)
                (posOf [⟨1, (0, 0, 0), (0, 0, 0), (7, 7, 7)⟩,
                    ⟨2, (1, 0, 0), (0, 1, 0), (0, 0, 0)⟩] j
                  - posOf [⟨1, (0, 0, 0), (0, 0, 0), (7, 7, 7)⟩,
                      ⟨2, (1, 0, 0), (0, 1, 0), (0, 0, 0)⟩] 0) + EPS_ACCEL ^ 2)
                ^ ((3 : ℝ) / 2))
              • (posOf [⟨1, (0, 0, 0), (0, 0, 0), (7, 7, 7)⟩,
                  ⟨2, (1, 0, 0), (0, 1, 0), (0, 0, 0)⟩] j
                - posOf [⟨1, (0, 0, 0), (0, 0, 0), (7, 7, 7)⟩,
                    ⟨2, (1, 0, 0), (0, 1, 0), (0, 0, 0)⟩] 0))
      ∧ accOf (compute_accelerations
          [⟨1, (0, 0, 0), (9, 9, 9), (1, 2, 3)⟩, ⟨2, (1, 0, 0), (4, 4, 4), (5, 6, 7)⟩]) 0
        = accOf (compute_accelerations
          [⟨1, (0, 0, 0), (0, 0, 0), (7, 7, 7)⟩, ⟨2, (1, 0, 0), (0, 1, 0), (0, 0, 0)⟩]) 0) :=
  ⟨by decide,
   compute_accelerations_pairwise_sum
     [⟨1, (0, 0, 0), (0, 0, 0), (7, 7, 7)⟩, ⟨2, (1, 0, 0), (0, 1, 0), (0, 0, 0)⟩]
     [⟨1, (0, 0, 0), (9, 9, 9), (1, 2, 3)⟩, ⟨2, (1, 0, 0), (4, 4, 4), (5, 6, 7)⟩]
     0 (by decide) (by decide)
     (by intro j hj; simp only [List.length_cons, List.length_nil] at hj; interval_cases j <;> exact ⟨rfl, rfl⟩)⟩

/-- C6: Newton's third law: for any two-body configuration
`compute_accelerations` produces `m₀·a₀ = −m₁·a₁` exactly. -/
theorem compute_accelerations_third_law (b0 b1 : Body) :
    b0.mass • accOf (compute_accelerations [b0, b1]) 0
      = -(b1.mass • accOf (compute_accelerations [b0, b1]) 1) := by
  rw [accOf_compute_accelerations _ 0 (by simp), accOf_compute_accelerations _ 1 (by simp),
    accTable_eq_sum _ 0 (by simp), accTable_eq_sum _ 1 (by simp)]
  have hl : ([b0, b1] : List Body).length = 2 := by simp
  rw [hl]
  have h0 : (Finset.range 2).erase 0 = {1} := by decide
  have h1 : (Finset.range 2).erase 1 = {0} := by decide
  have hm0 : massOf ([b0, b1] : List Body) 0 = b0.mass := rfl
  have hm1 : massOf ([b0, b1] : List Body) 1 = b1.mass := rfl
  have hps : posOf ([b0, b1] : List Body) 0 - posOf ([b0, b1] : List Body) 1
      = -(posOf ([b0, b1] : List Body) 1 - posOf ([b0, b1] : List Body) 0) := by
    abel
  rw [h0, h1, Finset.sum_singleton, Finset.sum_singleton,
    dist2_symm ([b0, b1] : List Body) 1 0, hm0, hm1, hps, smul_neg, smul_neg, neg_neg,
    smul_smul, smul_smul]
  congr 1
  ring

section PN

theorem getD_map (f : Body → Body) (l : List Body) (i : ℕ) (h : i < l.length) :
    (l.map f).getD i default = f (l.getD i default) := by
  have h' : i < (l.map f).length := by simpa using h
  rw [List.getD_eq_getElem?_getD, List.getD_eq_getElem?_getD,
    List.getElem?_eq_getElem h', List.getElem?_eq_getElem h, Option.getD_some,
    Option.getD_some, List.getElem_map]

/-- The 1PN correction term added to body `b`'s acceleration relative to the
central body `sun`, from `compute_pn_accelerations` of `physics/pn1.py`:
`a_PN = (G·M/(c²·r³))·[(4·G·M/r − v²)·r⃗ + 4·(r⃗·v⃗)·v⃗]` with the softened
`r = sqrt(|r⃗|² + EPS_ACCEL²)`. -/
noncomputable def pnCorrection (sun b : Body) : Vec3 :=
  let r_vec := b.pos - sun.pos
  let v_vec := b.vel - sun.vel
  let r2 := dot r_vec r_vec + EPS_ACCEL ^ 2
  let r := Real.sqrt r2
  let v2 := dot v_vec v_vec
  let rv := dot r_vec v_vec
  let factor := G * sun.mass / (C_AU_PER_YR ^ 2 * r ^ 3)
  factor • ((4 * G * sun.mass / r - v2) • r_vec + (4 * rv) • v_vec)

/-- `compute_pn_accelerations(bodies)` of `physics/pn1.py`: treats
`bodies[0]` as the central mass and adds the 1PN term, in place, to the
acceleration of every later body. On the empty list the source raises
(`bodies[0]` is an index error); the embedding returns the empty list and
every theorem about it assumes a nonempty list. -/
noncomputable def compute_pn_accelerations : List Body → List Body
  | [] => []
  | sun :: rest => sun :: rest.map fun b => { b with acc := b.acc + pnCorrection sun b }

@[simp] theorem compute_pn_length (bs : List Body) :
    (compute_pn_accelerations bs).length = bs.length := by
  cases bs with
  | nil => rfl
  | cons sun rest => simp [compute_pn_accelerations]

theorem compute_pn_getD_zero (sun : Body) (rest : List Body) :
    (compute_pn_accelerations (sun :: rest)).getD 0 default = sun := rfl

theorem compute_pn_getD_succ (sun : Body) (rest : List Body) (i : ℕ) (h : i < rest.length) :
    (compute_pn_accelerations (sun :: rest)).getD (i + 1) default
      = { rest.getD i default with
          acc := (rest.getD i default).acc + pnCorrection sun (rest.getD i default) } := by
  simp only [compute_pn_accelerations, List.getD_cons_succ]
  exact getD_map _ rest i h

theorem massOf_compute_pn (bs : List Body) (i : ℕ) (h : i < bs.length) :
    massOf (compute_pn_accelerations bs) i = massOf bs i := by
  cases bs with
  | nil => simp at h
  | cons sun rest =>
    cases i with
    | zero => rfl
    | succ i =>
      unfold massOf
      rw [compute_pn_getD_succ sun rest i (by simpa using h), List.getD_cons_succ]

theorem posOf_compute_pn (bs : List Body) (i : ℕ) (h : i < bs.length) :
    posOf (compute_pn_accelerations bs) i = posOf bs i := by
  cases bs with
  | nil => simp at h
  | cons sun rest =>
    cases i with
    | zero => rfl
    | succ i =>
      unfold posOf
      rw [compute_pn_getD_succ sun rest i (by simpa using h), List.getD_cons_succ]

theorem velOf_compute_pn (bs : List Body) (i : ℕ) (h : i < bs.length) :
    velOf (compute_pn_accelerations bs) i = velOf bs i := by
  cases bs with
  | nil => simp at h
  | cons sun rest =>
    cases i with
    | zero => rfl
    | succ i =>
      unfold velOf
      rw [compute_pn_getD_succ sun rest i (by simpa using h), List.getD_cons_succ]

end PN

/-- C5: for a nonempty body list, `compute_pn_accelerations` adds to each
body after `bodies[0]` (and to no other body) exactly the 1PN term
`(G·M/(c²·r³))·[(4·G·M/r − v²)·r⃗ + 4·(r⃗·v⃗)·v⃗]`, computed from position and
velocity relative to `bodies[0]` with the softened `r² = |r⃗|² + ε_accel²`;
it is purely additive, and it leaves `bodies[0]` (in particular its
acceleration) and every body's position, velocity and mass unchanged. -/
theorem compute_pn_adds_correction (bs : List Body) (i : ℕ)
    (hne : bs ≠ []) (h0 : 0 < i) (hi : i < bs.length) :
    (compute_pn_accelerations bs).length = bs.length
    ∧ (compute_pn_accelerations bs).getD 0 default = bs.getD 0 default
    ∧ massOf (compute_pn_accelerations bs) i = massOf bs i
    ∧ posOf (compute_pn_accelerations bs) i = posOf bs i
    ∧ velOf (compute_pn_accelerations bs) i = velOf bs i
    ∧ accOf (compute_pn_accelerations bs) i
        = accOf bs i
          + (G * massOf bs 0 /
              (C_AU_PER_YR ^ 2 *
                Real.sqrt (dot (posOf bs i - posOf bs 0) (posOf bs i - posOf bs 0)
                  + EPS_ACCEL ^ 2) ^ 3))
            • ((4 * G * massOf bs 0 /
                  Real.sqrt (dot (posOf bs i - posOf bs 0) (posOf bs i - posOf bs 0)
                    + EPS_ACCEL ^ 2)
                - dot (velOf bs i - velOf bs 0) (velOf bs i - velOf bs 0))
                • (posOf bs i - posOf bs 0)
              + (4 * dot (posOf bs i - posOf bs 0) (velOf bs i - velOf bs 0))
                • (velOf bs i - velOf bs 0)) := by
  cases bs with
  | nil => exact absurd rfl hne
  | cons sun rest =>
    obtain ⟨i, rfl⟩ : ∃ i', i = i' + 1 := ⟨i - 1, by omega⟩
    have hr : i < rest.length := by simpa using hi
    refine ⟨compute_pn_length _, rfl, massOf_compute_pn _ _ hi, posOf_compute_pn _ _ hi,
      velOf_compute_pn _ _ hi, ?_⟩
    unfold accOf
    rw [compute_pn_getD_succ sun rest i hr]
    have hsun : massOf (sun :: rest) 0 = sun.mass := rfl
    have hpos : posOf (sun :: rest) (i + 1) = (rest.getD i default).pos := by
      unfold posOf
      rw [List.getD_cons_succ]
    have hvel : velOf (sun :: rest) (i + 1) = (rest.getD i default).vel := by
      unfold velOf
      rw [List.getD_cons_succ]
    have hpos0 : posOf (sun :: rest) 0 = sun.pos := rfl
    have hvel0 : velOf (sun :: rest) 0 = sun.vel := rfl
    rw [hsun, hpos, hvel, hpos0, hvel0]
    rfl

/-- Witness for C5 at a concrete Sun-plus-planet list. -/
theorem compute_pn_adds_correction_witness :
    (([⟨1, (0, 0, 0), (0, 0, 0), (0, 0, 0)⟩,
       ⟨0.001, (1, 0, 0), (0, 6, 0), (1, 1, 1)⟩] : List Body) ≠ [])
    ∧ (0 : ℕ) < 1 ∧ (1 : ℕ) < 2
    ∧ ((compute_pn_accelerations
          [⟨1, (0, 0, 0), (0, 0, 0), (0, 0, 0)⟩,
           ⟨0.001, (1, 0, 0), (0, 6, 0), (1, 1, 1)⟩]).length = 2
      ∧ accOf (compute_pn_accelerations
          [⟨1, (0, 0, 0), (0, 0, 0), (0, 0, 0)⟩,
           ⟨0.001, (1, 0, 0), (0, 6, 0), (1, 1, 1)⟩]) 1
        = accOf [⟨1, (0, 0, 0), (0, 0, 0), (0, 0, 0)⟩,
           (⟨0.001, (1, 0, 0), (0, 6, 0), (1, 1, 1)⟩ : Body)] 1
          + (G * massOf [⟨1, (0, 0, 0), (0, 0, 0), (0, 0, 0)⟩,
               (⟨0.001, (1, 0, 0), (0, 6, 0), (1, 1, 1)⟩ : Body)] 0 /
              (C_AU_PER_YR ^ 2 *
                Real.sqrt (dot ((1, 0, 0) - (0, 0, 0)) ((1, 0, 0) - (0, 0, 0))
                  + EPS_ACCEL ^ 2) ^ 3))
            • ((4 * G * massOf [⟨1, (0, 0, 0), (0, 0, 0), (0, 0, 0)⟩,
                  (⟨0.001, (1, 0, 0), (0, 6, 0), (1, 1, 1)⟩ : Body)] 0 /
                  Real.sqrt (dot ((1, 0, 0) - (0, 0, 0)) ((1, 0, 0) - (0, 0, 0))
                    + EPS_ACCEL ^ 2)
                - dot ((0, 6, 0) - (0, 0, 0)) ((0, 6, 0) - (0, 0, 0)))
                • ((1, 0, 0) - (0, 0, 0))
              + (4 * dot ((1, 0, 0) - (0, 0, 0)) ((0, 6, 0) - (0, 0, 0)))
                • ((0, 6, 0) - (0, 0, 0)))) := by
  refine ⟨by simp, by decide, by decide, ?_⟩
  have h := compute_pn_adds_correction
    [⟨1, (0, 0, 0), (0, 0, 0), (0, 0, 0)⟩, ⟨0.001, (1, 0, 0), (0, 6, 0), (1, 1, 1)⟩]
    1 (by simp) (by decide) (by decide)
  exact ⟨h.1, h.2.2.2.2.2⟩

section Integrator

/-- `step_system(bodies, dt, use_relativity)` of `physics/nbody.py`: one
velocity-Verlet step — half-kick (`v += 0.5*a*dt`), drift (`pos += v*dt`),
recompute accelerations (plus 1PN correction if requested), half-kick. -/
noncomputable def step_system (bodies : List Body) (dt : ℝ) (use_relativity : Bool) :
    List Body :=
  let b1 := bodies.map fun b => { b with vel := b.vel + (0.5 * dt) • b.acc }
  let b2 := b1.map fun b => { b with pos := b.pos + dt • b.vel }
  let b3 := compute_accelerations b2
  let b4 := if use_relativity then compute_pn_accelerations b3 else b3
  b4.map fun b => { b with vel := b.vel + (0.5 * dt) • b.acc }

/-- The half-kicked-and-drifted intermediate list of a velocity-Verlet step:
each body at its new position, carrying the half-kicked velocity. -/
noncomputable def drifted (bodies : List Body) (dt : ℝ) : List Body :=
  bodies.map fun b =>
    { b with pos := b.pos + dt • (b.vel + (0.5 * dt) • b.acc),
             vel := b.vel + (0.5 * dt) • b.acc }

/-- The acceleration source of step (3) of the integrator: Newtonian
recomputation at the drifted positions, then the 1PN correction iff the
relativity flag is set. -/
noncomputable def newAccList (bodies : List Body) (dt : ℝ) (use_relativity : Bool) :
    List Body :=
  if use_relativity then compute_pn_accelerations (compute_accelerations (drifted bodies dt))
  else compute_accelerations (drifted bodies dt)

@[simp] theorem drifted_length (bodies : List Body) (dt : ℝ) :
    (drifted bodies dt).length = bodies.length := by
  simp [drifted]

@[simp] theorem newAccList_length (bodies : List Body) (dt : ℝ) (rel : Bool) :
    (newAccList bodies dt rel).length = bodies.length := by
  cases rel <;> simp [newAccList]

theorem massOf_newAccList (bodies : List Body) (dt : ℝ) (rel : Bool) (i : ℕ)
    (h : i < bodies.length) :
    massOf (newAccList bodies dt rel) i = massOf bodies i := by
  have hd : i < (drifted bodies dt).length := by simpa using h
  have hca : i < (compute_accelerations (drifted bodies dt)).length := by simpa using h
  have hm : massOf (drifted bodies dt) i = massOf bodies i := by
    unfold massOf drifted
    rw [getD_map _ _ _ h]
  cases rel with
  | false => rw [newAccList, if_neg (by simp), massOf_compute_accelerations _ _ hd, hm]
  | true =>
    rw [newAccList, if_pos rfl, massOf_compute_pn _ _ (by simpa using h),
      massOf_compute_accelerations _ _ hd, hm]

theorem posOf_newAccList (bodies : List Body) (dt : ℝ) (rel : Bool) (i : ℕ)
    (h : i < bodies.length) :
    posOf (newAccList bodies dt rel) i
      = posOf bodies i + dt • (velOf bodies i + (0.5 * dt) • accOf bodies i) := by
  have hd : i < (drifted bodies dt).length := by simpa using h
  have hp : posOf (drifted bodies dt) i
      = posOf bodies i + dt • (velOf bodies i + (0.5 * dt) • accOf bodies i) := by
    unfold posOf velOf accOf drifted
    rw [getD_map _ _ _ h]
  cases rel with
  | false => rw [newAccList, if_neg (by simp), posOf_compute_accelerations _ _ hd, hp]
  | true =>
    rw [newAccList, if_pos rfl, posOf_compute_pn _ _ (by simpa using h),
      posOf_compute_accelerations _ _ hd, hp]

theorem velOf_newAccList (bodies : List Body) (dt : ℝ) (rel : Bool) (i : ℕ)
    (h : i < bodies.length) :
    velOf (newAccList bodies dt rel) i = velOf bodies i + (0.5 * dt) • accOf bodies i := by
  have hd : i < (drifted bodies dt).length := by simpa using h
  have hv : velOf (drifted bodies dt) i = velOf bodies i + (0.5 * dt) • accOf bodies i := by
    unfold velOf accOf drifted
    rw [getD_map _ _ _ h]
  cases rel with
  | false => rw [newAccList, if_neg (by simp), velOf_compute_accelerations _ _ hd, hv]
  | true =>
    rw [newAccList, if_pos rfl, velOf_compute_pn _ _ (by simpa using h),
      velOf_compute_accelerations _ _ hd, hv]

theorem step_system_eq (bodies : List Body) (dt : ℝ) (rel : Bool) :
    step_system bodies dt rel
      = (newAccList bodies dt rel).map fun b => { b with vel := b.vel + (0.5 * dt) • b.acc } := by
  simp only [step_system, newAccList, drifted, List.map_map]
  rfl

@[simp] theorem step_system_length (bodies : List Body) (dt : ℝ) (rel : Bool) :
    (step_system bodies dt rel).length = bodies.length := by
  rw [step_system_eq]
  simp

/-- Per-body characterization of one velocity-Verlet step: the post-state
satisfies `pos' = pos + (v + ½·a·dt)·dt`, `acc' = a_new`, and
`v' = v + ½·(a + a_new)·dt`, where `a_new` is the acceleration recomputed at
the drifted positions with the PN correction added iff the flag is set. -/
theorem step_system_spec (bodies : List Body) (dt : ℝ) (rel : Bool) (i : ℕ)
    (h : i < bodies.length) :
    massOf (step_system bodies dt rel) i = massOf bodies i
    ∧ posOf (step_system bodies dt rel) i
        = posOf bodies i + dt • (velOf bodies i + (0.5 * dt) • accOf bodies i)
    ∧ accOf (step_system bodies dt rel) i = accOf (newAccList bodies dt rel) i
    ∧ velOf (step_system bodies dt rel) i
        = velOf bodies i + (0.5 * dt) • (accOf bodies i + accOf (newAccList bodies dt rel) i) := by
  have hn : i < (newAccList bodies dt rel).length := by simpa using h
  refine ⟨?_, ?_, ?_, ?_⟩
  · rw [step_system_eq]
    unfold massOf
    rw [getD_map _ _ _ hn]
    exact massOf_newAccList bodies dt rel i h
  · rw [step_system_eq]
    unfold posOf
    rw [getD_map _ _ _ hn]
    exact posOf_newAccList bodies dt rel i h
  · rw [step_system_eq]
    unfold accOf
    rw [getD_map _ _ _ hn]
  · have hmap : velOf (step_system bodies dt rel) i
        = velOf (newAccList bodies dt rel) i + (0.5 * dt) • accOf (newAccList bodies dt rel) i := by
      rw [step_system_eq]
      unfold velOf accOf
      rw [getD_map _ _ _ hn]
    rw [hmap, velOf_newAccList bodies dt rel i h, smul_add]
    abel

end Integrator

/-- C1: `step_system` performs, in order, half-kick, drift, acceleration
recomputation at the new positions (PN correction added iff the flag is
set), and a second half-kick: the post-state satisfies
`pos' = pos + (v + ½·a·dt)·dt`, `v' = v + ½·(a + a')·dt`, and `acc' = a'`,
with `a'` the acceleration list recomputed by `compute_accelerations` at
the drifted positions plus the optional PN correction; masses are
untouched. -/
theorem step_system_velocity_verlet (bodies : List Body) (dt : ℝ) (rel : Bool) (i : ℕ)
    (h : i < bodies.length) :
    massOf (step_system bodies dt rel) i = massOf bodies i
    ∧ posOf (step_system bodies dt rel) i
        = posOf bodies i + dt • (velOf bodies i + (0.5 * dt) • accOf bodies i)
    ∧ accOf (step_system bodies dt rel) i
        = accOf (if rel then
            compute_pn_accelerations (compute_accelerations
              (bodies.map fun b =>
                { b with pos := b.pos + dt • (b.vel + (0.5 * dt) • b.acc),
                         vel := b.vel + (0.5 * dt) • b.acc }))
          else compute_accelerations
              (bodies.map fun b =>
                { b with pos := b.pos + dt • (b.vel + (0.5 * dt) • b.acc),
                         vel := b.vel + (0.5 * dt) • b.acc })) i
    ∧ velOf (step_system bodies dt rel) i
        = velOf bodies i + (0.5 * dt) • (accOf bodies i
            + accOf (if rel then
                compute_pn_accelerations (compute_accelerations
                  (bodies.map fun b =>
                    { b with pos := b.pos + dt • (b.vel + (0.5 * dt) • b.acc),
                             vel := b.vel + (0.5 * dt) • b.acc }))
              else compute_accelerations
                  (bodies.map fun b =>
                    { b with pos := b.pos + dt • (b.vel + (0.5 * dt) • b.acc),
                             vel := b.vel + (0.5 * dt) • b.acc })) i) := by
  have hspec := step_system_spec bodies dt rel i h
  have heq : (if rel then
      compute_pn_accelerations (compute_accelerations
        (bodies.map fun b =>
          { b with pos := b.pos + dt • (b.vel + (0.5 * dt) • b.acc),
                   vel := b.vel + (0.5 * dt) • b.acc }))
    else compute_accelerations
        (bodies.map fun b =>
          { b with pos := b.pos + dt • (b.vel + (0.5 * dt) • b.acc),
                   vel := b.vel + (0.5 * dt) • b.acc })) = newAccList bodies dt rel := by
    cases rel <;> rfl
  rw [heq]
  exact hspec

/-- Witness for C1: a single-body system stepped with the relativistic flag
on. -/
theorem step_system_velocity_verlet_witness :
    (0 : ℕ) < ([⟨1, (1, 0, 0), (0, 1, 0), (2, 3, 4)⟩] : List Body).length
    ∧ (massOf (step_system [⟨1, (1, 0, 0), (0, 1, 0), (2, 3, 4)⟩] 1 true) 0
        = massOf [(⟨1, (1, 0, 0), (0, 1, 0), (2, 3, 4)⟩ : Body)] 0
      ∧ posOf (step_system [⟨1, (1, 0, 0), (0, 1, 0), (2, 3, 4)⟩] 1 true) 0
          = posOf [(⟨1, (1, 0, 0), (0, 1, 0), (2, 3, 4)⟩ : Body)] 0
            + (1 : ℝ) • (velOf [(⟨1, (1, 0, 0), (0, 1, 0), (2, 3, 4)⟩ : Body)] 0
              + (0.5 * 1 : ℝ) • accOf [(⟨1, (1, 0, 0), (0, 1, 0), (2, 3, 4)⟩ : Body)] 0)
      ∧ accOf (step_system [⟨1, (1, 0, 0), (0, 1, 0), (2, 3, 4)⟩] 1 true) 0
          = accOf (compute_pn_accelerations (compute_accelerations
              (([⟨1, (1, 0, 0), (0, 1, 0), (2, 3, 4)⟩] : List Body).map fun b =>
                { b with pos := b.pos + (1 : ℝ) • (b.vel + (0.5 * 1 : ℝ) • b.acc),
                         vel := b.vel + (0.5 * 1 : ℝ) • b.acc }))) 0
      ∧ velOf (step_system [⟨1, (1, 0, 0), (0, 1, 0), (2, 3, 4)⟩] 1 true) 0
          = velOf [(⟨1, (1, 0, 0), (0, 1, 0), (2, 3, 4)⟩ : Body)] 0
            + (0.5 * 1 : ℝ) • (accOf [(⟨1, (1, 0, 0), (0, 1, 0), (2, 3, 4)⟩ : Body)] 0
              + accOf (compute_pn_accelerations (compute_accelerations
                  (([⟨1, (1, 0, 0), (0, 1, 0), (2, 3, 4)⟩] : List Body).map fun b =>
                    { b with pos := b.pos + (1 : ℝ) • (b.vel + (0.5 * 1 : ℝ) • b.acc),
                             vel := b.vel + (0.5 * 1 : ℝ) • b.acc }))) 0)) := by
  refine ⟨by decide, ?_⟩
  have h := step_system_velocity_verlet [⟨1, (1, 0, 0), (0, 1, 0), (2, 3, 4)⟩] 1 true 0
    (by decide)
  simpa using h

section Reversibility

theorem getD_eq_getElem_body (l : List Body) (i : ℕ) (h : i < l.length) :
    l.getD i default = l.get ⟨i, h⟩ := by
  rw [List.getD_eq_getElem?_getD, List.getElem?_eq_getElem h, Option.getD_some]
  simp

theorem list_eq_of_fields (l1 l2 : List Body) (hlen : l1.length = l2.length)
    (hf : ∀ i, i < l2.length → massOf l1 i = massOf l2 i ∧ posOf l1 i = posOf l2 i
      ∧ velOf l1 i = velOf l2 i ∧ accOf l1 i = accOf l2 i) : l1 = l2 := by
  apply List.ext_getElem hlen
  intro i h1 h2
  obtain ⟨hm, hp, hv, ha⟩ := hf i h2
  unfold massOf at hm
  unfold posOf at hp
  unfold velOf at hv
  unfold accOf at ha
  rw [getD_eq_getElem_body l1 i h1, getD_eq_getElem_body l2 i h2] at hm hp hv ha
  simp only [List.get_eq_getElem] at hm hp hv ha
  exact Body.ext hm hp hv ha

theorem massOf_drifted (bodies : List Body) (dt : ℝ) (i : ℕ) (h : i < bodies.length) :
    massOf (drifted bodies dt) i = massOf bodies i := by
  unfold massOf drifted
  rw [getD_map _ _ _ h]

theorem posOf_drifted (bodies : List Body) (dt : ℝ) (i : ℕ) (h : i < bodies.length) :
    posOf (drifted bodies dt) i
      = posOf bodies i + dt • (velOf bodies i + (0.5 * dt) • accOf bodies i) := by
  unfold posOf velOf accOf drifted
  rw [getD_map _ _ _ h]

theorem newAccList_false (bodies : List Body) (dt : ℝ) :
    newAccList bodies dt false = compute_accelerations (drifted bodies dt) := by
  simp [newAccList]

/-- Every output of a non-relativistic velocity-Verlet step stores
accelerations consistent with `compute_accelerations` at its own positions:
recomputing them is the identity. -/
theorem accConsistent_step (bodies : List Body) (dt : ℝ) :
    compute_accelerations (step_system bodies dt false) = step_system bodies dt false := by
  have hTable : accTable (step_system bodies dt false) = accTable (drifted bodies dt) := by
    apply accTable_congr
    · simp
    · intro j hj
      have hjb : j < bodies.length := by simpa using hj
      obtain ⟨hm, hp, _, _⟩ := step_system_spec bodies dt false j hjb
      exact ⟨by rw [hm, massOf_drifted _ _ _ hjb],
        by rw [hp, posOf_drifted _ _ _ hjb]⟩
  apply list_eq_of_fields
  · simp
  · intro i hi
    have hib : i < bodies.length := by simpa using hi
    have hdb : i < (drifted bodies dt).length := by simpa using hib
    refine ⟨massOf_compute_accelerations _ _ hi, posOf_compute_accelerations _ _ hi,
      velOf_compute_accelerations _ _ hi, ?_⟩
    rw [accOf_compute_accelerations _ _ hi, hTable,
      (step_system_spec bodies dt false i hib).2.2.1, newAccList_false,
      accOf_compute_accelerations _ _ hdb]

/-- One forward step followed by one backward step (relativity off) is the
identity on any consistent state. -/
theorem step_system_reverse (bodies : List Body) (dt : ℝ)
    (hc : compute_accelerations bodies = bodies) :
    step_system (step_system bodies dt false) (-dt) false = bodies := by
  set s := step_system bodies dt false with hs
  have hslen : s.length = bodies.length := by simp [hs]
  apply list_eq_of_fields
  · simp [hs]
  · intro i hi
    have his : i < s.length := by omega
    obtain ⟨hm1, hp1, ha1, hv1⟩ := step_system_spec bodies dt false i hi
    obtain ⟨hm2, hp2, ha2, hv2⟩ := step_system_spec s (-dt) false i his
    have hAcons : accTable bodies i = accOf bodies i := by
      conv_rhs => rw [← hc]
      rw [accOf_compute_accelerations _ _ hi]
    -- the backward step recomputes accelerations at the original positions
    have hTable : accTable (drifted s (-dt)) = accTable bodies := by
      apply accTable_congr
      · simp [hs]
      · intro j hj
        have hjs : j < s.length := by omega
        obtain ⟨hm1j, hp1j, ha1j, hv1j⟩ := step_system_spec bodies dt false j hj
        refine ⟨by rw [massOf_drifted _ _ _ hjs, hm1j], ?_⟩
        rw [posOf_drifted _ _ _ hjs, hp1j, hv1j, ha1j]
        module
    have hAnew : accOf (newAccList s (-dt) false) i = accOf bodies i := by
      rw [newAccList_false, accOf_compute_accelerations _ _ (by simpa using his),
        hTable, hAcons]
    refine ⟨by rw [hm2, hm1], ?_, ?_, by rw [ha2, hAnew]⟩
    · rw [hp2, hp1, hv1, ha1]
      module
    · rw [hv2, hv1, ha1, hAnew]
      module

theorem accConsistent_iterate (bodies : List Body) (dt : ℝ)
    (hc : compute_accelerations bodies = bodies) (N : ℕ) :
    compute_accelerations ((fun l => step_system l dt false)^[N] bodies)
      = (fun l => step_system l dt false)^[N] bodies := by
  cases N with
  | zero => exact hc
  | succ n =>
    rw [Function.iterate_succ_apply']
    exact accConsistent_step _ dt

end Reversibility

/-- C7: the integrator is time-reversible in exact arithmetic: on a body
list whose stored accelerations agree with `compute_accelerations` at the
current positions, a `step_system` with `dt` followed by one with `-dt`
(relativity off) restores the state exactly, and `N` forward steps followed
by `N` backward steps restore the initial state. -/
theorem step_system_time_reversible (bodies : List Body) (dt : ℝ) (N : ℕ)
    (hc : compute_accelerations bodies = bodies) :
    step_system (step_system bodies dt false) (-dt) false = bodies
    ∧ (fun l => step_system l (-dt) false)^[N]
        ((fun l => step_system l dt false)^[N] bodies) = bodies := by
  refine ⟨step_system_reverse bodies dt hc, ?_⟩
  induction N with
  | zero => rfl
  | succ n ih =>
    have hfwd : (fun l => step_system l dt false)^[n + 1] bodies
        = step_system ((fun l => step_system l dt false)^[n] bodies) dt false := by
      rw [Function.iterate_succ_apply']
    have hrev : ∀ x, (fun l => step_system l (-dt) false)^[n + 1] x
        = (fun l => step_system l (-dt) false)^[n] (step_system x (-dt) false) := by
      intro x
      rw [Function.iterate_succ_apply]
    rw [hfwd, hrev,
      step_system_reverse _ dt (accConsistent_iterate bodies dt hc n), ih]

/-- Witness for C7: a single consistent body (zero stored acceleration),
stepped forward and back with `dt = 1`, for `N = 2`. -/
theorem step_system_time_reversible_witness :
    compute_accelerations [(⟨1, (1, 0, 0), (0, 1, 0), (0, 0, 0)⟩ : Body)]
        = [(⟨1, (1, 0, 0), (0, 1, 0), (0, 0, 0)⟩ : Body)]
    ∧ (step_system (step_system [(⟨1, (1, 0, 0), (0, 1, 0), (0, 0, 0)⟩ : Body)] 1 false)
          (-1) false = [(⟨1, (1, 0, 0), (0, 1, 0), (0, 0, 0)⟩ : Body)]
      ∧ (fun l => step_system l (-1) false)^[2]
          ((fun l => step_system l (1 : ℝ) false)^[2]
            [(⟨1, (1, 0, 0), (0, 1, 0), (0, 0, 0)⟩ : Body)])
        = [(⟨1, (1, 0, 0), (0, 1, 0), (0, 0, 0)⟩ : Body)]) := by
  have hc : compute_accelerations [(⟨1, (1, 0, 0), (0, 1, 0), (0, 0, 0)⟩ : Body)]
      = [(⟨1, (1, 0, 0), (0, 1, 0), (0, 0, 0)⟩ : Body)] := by
    show setAccs (accTable _) 0 _ = _
    rw [show accTable [(⟨1, (1, 0, 0), (0, 1, 0), (0, 0, 0)⟩ : Body)] = fun _ => 0 from rfl]
    rfl
  exact ⟨hc, step_system_time_reversible _ 1 2 hc⟩

section Diagnostics

/-- `total_energy(bodies)` of `physics/diagnostics.py`: kinetic energy
`Σ ½·m·|v|²` plus the pairwise potential `−G·m_i·m_j/dist` accumulated over
the `i < j` double loop, each pair guarded by `dist > 0` (an unsoftened
distance, unlike the force model). -/
noncomputable def total_energy (bs : List Body) : ℝ :=
  (bs.map fun b => 0.5 * b.mass * dot b.vel b.vel).sum
  + ((loopPairs bs.length).map fun p =>
      if 0 < norm3 (posOf bs p.2 - posOf bs p.1) then
        -(G * massOf bs p.1 * massOf bs p.2 / norm3 (posOf bs p.2 - posOf bs p.1))
      else 0).sum

theorem list_sum_map_eq_range (f : Body → ℝ) (l : List Body) :
    (l.map f).sum = ∑ i ∈ Finset.range l.length, f (l.getD i default) := by
  induction l with
  | nil => simp
  | cons b l ih =>
    rw [List.map_cons, List.sum_cons, ih, List.length_cons, Finset.sum_range_succ']
    simp only [List.getD_cons_succ, List.getD_cons_zero]
    rw [add_comm]

theorem dot_self_pos (v : Vec3) (hv : v ≠ 0) : 0 < dot v v := by
  rcases eq_or_lt_of_le (show (0 : ℝ) ≤ dot v v from by
    unfold dot
    nlinarith [mul_self_nonneg v.1, mul_self_nonneg v.2.1, mul_self_nonneg v.2.2]) with h | h
  · exfalso
    apply hv
    unfold dot at h
    have h1 := mul_self_nonneg v.1
    have h2 := mul_self_nonneg v.2.1
    have h3 := mul_self_nonneg v.2.2
    have e1 : v.1 = 0 := mul_self_eq_zero.mp (by nlinarith)
    have e2 : v.2.1 = 0 := mul_self_eq_zero.mp (by nlinarith)
    have e3 : v.2.2 = 0 := mul_self_eq_zero.mp (by nlinarith)
    rw [show v = (v.1, v.2.1, v.2.2) from rfl, e1, e2, e3]
    rfl
  · exact h

theorem norm3_pos (v : Vec3) (hv : v ≠ 0) : 0 < norm3 v :=
  Real.sqrt_pos.mpr (dot_self_pos v hv)

theorem norm3_sub_comm (a b : Vec3) : norm3 (b - a) = norm3 (a - b) := by
  unfold norm3 dot
  congr 1
  simp only [Prod.fst_sub, Prod.snd_sub]
  ring

end Diagnostics

/-- C8: for bodies at pairwise distinct positions, `total_energy` returns
`Σ ½·m·|v|²` minus `Σ_{i<j} G·m_i·m_j/|pos_i − pos_j|`, with no softening
in the potential term. (The embedding is a pure function of the body list,
reflecting that the source only reads the bodies.) -/
theorem total_energy_unsoftened (bs : List Body)
    (hd : ∀ i j, i < j → j < bs.length → posOf bs i ≠ posOf bs j) :
    total_energy bs
      = (∑ i ∈ Finset.range bs.length, 0.5 * massOf bs i * dot (velOf bs i) (velOf bs i))
        - ∑ p ∈ pairsFinset bs.length,
            G * massOf bs p.1 * massOf bs p.2 / norm3 (posOf bs p.1 - posOf bs p.2) := by
  unfold total_energy
  rw [list_sum_map_eq_range, sum_loopPairs]
  have hkin : ∀ i ∈ Finset.range bs.length,
      0.5 * (bs.getD i default).mass * dot (bs.getD i default).vel (bs.getD i default).vel
        = 0.5 * massOf bs i * dot (velOf bs i) (velOf bs i) := fun i _ => rfl
  rw [Finset.sum_congr rfl hkin]
  have hpot : ∀ p ∈ pairsFinset bs.length,
      (if 0 < norm3 (posOf bs p.2 - posOf bs p.1) then
        -(G * massOf bs p.1 * massOf bs p.2 / norm3 (posOf bs p.2 - posOf bs p.1))
      else 0)
        = -(G * massOf bs p.1 * massOf bs p.2 / norm3 (posOf bs p.1 - posOf bs p.2)) := by
    intro p hp
    have hmem : p.1 < p.2 ∧ p.2 < bs.length := by
      have := hp
      unfold pairsFinset at this
      simp only [Finset.mem_filter, Finset.mem_product, Finset.mem_range] at this
      exact ⟨this.2, this.1.2⟩
    have hne : posOf bs p.2 - posOf bs p.1 ≠ 0 := by
      rw [sub_ne_zero]
      exact fun hcon => hd p.1 p.2 hmem.1 hmem.2 hcon.symm
    rw [if_pos (norm3_pos _ hne), norm3_sub_comm]
  rw [Finset.sum_congr rfl hpot, Finset.sum_neg_distrib, sub_eq_add_neg]

/-- Witness for C8: two bodies at distinct positions. -/
theorem total_energy_unsoftened_witness :
    (∀ i j, i < j → j < ([⟨1, (0, 0, 0), (3, 0, 0), (0, 0, 0)⟩,
        ⟨2, (1, 0, 0), (0, 4, 0), (0, 0, 0)⟩] : List Body).length →
      posOf [⟨1, (0, 0, 0), (3, 0, 0), (0, 0, 0)⟩,
        ⟨2, (1, 0, 0), (0, 4, 0), (0, 0, 0)⟩] i
        ≠ posOf [⟨1, (0, 0, 0), (3, 0, 0), (0, 0, 0)⟩,
        ⟨2, (1, 0, 0), (0, 4, 0), (0, 0, 0)⟩] j)
    ∧ total_energy [⟨1, (0, 0, 0), (3, 0, 0), (0, 0, 0)⟩,
        ⟨2, (1, 0, 0), (0, 4, 0), (0, 0, 0)⟩]
      = (∑ i ∈ Finset.range ([⟨1, (0, 0, 0), (3, 0, 0), (0, 0, 0)⟩,
            ⟨2, (1, 0, 0), (0, 4, 0), (0, 0, 0)⟩] : List Body).length,
          0.5 * massOf [⟨1, (0, 0, 0), (3, 0, 0), (0, 0, 0)⟩,
            ⟨2, (1, 0, 0), (0, 4, 0), (0, 0, 0)⟩] i
            * dot (velOf [⟨1, (0, 0, 0), (3, 0, 0), (0, 0, 0)⟩,
                ⟨2, (1, 0, 0), (0, 4, 0), (0, 0, 0)⟩] i)
              (velOf [⟨1, (0, 0, 0), (3, 0, 0), (0, 0, 0)⟩,
                ⟨2, (1, 0, 0), (0, 4, 0), (0, 0, 0)⟩] i))
        - ∑ p ∈ pairsFinset ([⟨1, (0, 0, 0), (3, 0, 0), (0, 0, 0)⟩,
            ⟨2, (1, 0, 0), (0, 4, 0), (0, 0, 0)⟩] : List Body).length,
            G * massOf [⟨1, (0, 0, 0), (3, 0, 0), (0, 0, 0)⟩,
              ⟨2, (1, 0, 0), (0, 4, 0), (0, 0, 0)⟩] p.1
              * massOf [⟨1, (0, 0, 0), (3, 0, 0), (0, 0, 0)⟩,
                ⟨2, (1, 0, 0), (0, 4, 0), (0, 0, 0)⟩] p.2
              / norm3 (posOf [⟨1, (0, 0, 0), (3, 0, 0), (0, 0, 0)⟩,
                  ⟨2, (1, 0, 0), (0, 4, 0), (0, 0, 0)⟩] p.1
                - posOf [⟨1, (0, 0, 0), (3, 0, 0), (0, 0, 0)⟩,
                    ⟨2, (1, 0, 0), (0, 4, 0), (0, 0, 0)⟩] p.2) := by
  have hd : ∀ i j, i < j → j < ([⟨1, (0, 0, 0), (3, 0, 0), (0, 0, 0)⟩,
      ⟨2, (1, 0, 0), (0, 4, 0), (0, 0, 0)⟩] : List Body).length →
      posOf [⟨1, (0, 0, 0), (3, 0, 0), (0, 0, 0)⟩,
        ⟨2, (1, 0, 0), (0, 4, 0), (0, 0, 0)⟩] i
        ≠ posOf [⟨1, (0, 0, 0), (3, 0, 0), (0, 0, 0)⟩,
        ⟨2, (1, 0, 0), (0, 4, 0), (0, 0, 0)⟩] j := by
    intro i j hij hj
    simp only [List.length_cons, List.length_nil] at hj
    interval_cases j
    · omega
    · interval_cases i
      · show ((0 : ℝ), (0 : ℝ), (0 : ℝ)) ≠ ((1 : ℝ), (0 : ℝ), (0 : ℝ))
        intro hcon
        have hcon1 : (0 : ℝ) = 1 := congrArg Prod.fst hcon
        norm_num at hcon1
  exact ⟨hd, total_energy_unsoftened _ hd⟩

/-- C10: `total_energy` is total on coincident bodies: a pair occupying
exactly the same position is skipped by the `dist > 0` guard and
contributes zero potential energy, so the total is just the kinetic sum. -/
theorem total_energy_coincident_pair (b1 b2 : Body) (h : b1.pos = b2.pos) :
    total_energy [b1, b2]
      = 0.5 * b1.mass * dot b1.vel b1.vel + 0.5 * b2.mass * dot b2.vel b2.vel := by
  unfold total_energy
  rw [show ([b1, b2] : List Body).length = 2 from rfl,
    show loopPairs 2 = [(0, 1)] from rfl]
  have hpos : posOf [b1, b2] 1 - posOf [b1, b2] 0 = 0 := by
    show b2.pos - b1.pos = 0
    rw [← h, sub_self]
  simp only [List.map_cons, List.map_nil, List.sum_cons, List.sum_nil, hpos]
  have hn : norm3 (0 : Vec3) = 0 := by
    unfold norm3 dot
    norm_num
  rw [hn]
  norm_num

/-- Witness for C10: two coincident bodies. -/
theorem total_energy_coincident_pair_witness :
    ((⟨1, (1, 2, 3), (1, 0, 0), (0, 0, 0)⟩ : Body).pos
        = (⟨2, (1, 2, 3), (0, 1, 0), (0, 0, 0)⟩ : Body).pos)
    ∧ total_energy [⟨1, (1, 2, 3), (1, 0, 0), (0, 0, 0)⟩,
        ⟨2, (1, 2, 3), (0, 1, 0), (0, 0, 0)⟩]
      = 0.5 * (⟨1, (1, 2, 3), (1, 0, 0), (0, 0, 0)⟩ : Body).mass
          * dot (⟨1, (1, 2, 3), (1, 0, 0), (0, 0, 0)⟩ : Body).vel
            (⟨1, (1, 2, 3), (1, 0, 0), (0, 0, 0)⟩ : Body).vel
        + 0.5 * (⟨2, (1, 2, 3), (0, 1, 0), (0, 0, 0)⟩ : Body).mass
          * dot (⟨2, (1, 2, 3), (0, 1, 0), (0, 0, 0)⟩ : Body).vel
            (⟨2, (1, 2, 3), (0, 1, 0), (0, 0, 0)⟩ : Body).vel :=
  ⟨rfl, total_energy_coincident_pair _ _ rfl⟩

section Kepler

/-- `np.mod(x, m)`: Python-style floored modulo, `x − m·⌊x/m⌋`. -/
noncomputable def npMod (x m : ℝ) : ℝ := x - m * ⌊x / m⌋

open Classical in
/-- The Newton-Raphson loop of `solve_kepler` of `physics/elements.py`:
up to `n` more iterations of `dE = -(E - e·sin E - M)/(1 - e·cos E)`,
`E += dE`, with early exit once `|dE| < tol`. -/
noncomputable def solveKeplerLoop (e M tol : ℝ) : ℕ → ℝ → ℝ
  | 0, E => E
  | n + 1, E =>
    let f := E - e * Real.sin E - M
    let fprime := 1 - e * Real.cos E
    let dE := -f / fprime
    let E' := E + dE
    if |dE| < tol then E' else solveKeplerLoop e M tol n E'

open Classical in
/-- `solve_kepler(M, e, tol, max_iter)` of `physics/elements.py`:
wrap `M` into `[0, 2π)`, seed at `M` for `e < 0.8` and at `π` otherwise,
then Newton-Raphson with tolerance-based early exit. The source defaults
are `tol = 1e-10`, `max_iter = 50`. -/
noncomputable def solve_kepler (M e tol : ℝ) (max_iter : ℕ) : ℝ :=
  let M' := npMod M (2 * Real.pi)
  let E0 := if e < 0.8 then M' else Real.pi
  solveKeplerLoop e M' tol max_iter E0

/-- The inline Kepler solve of `elements_to_state` (`physics/elements.py`,
the `E = M; for _ in range(10): E -= kepler(E,M,e)/kepler_prime(E,e)` loop):
seed at the raw `M`, ten unconditional Newton-Raphson iterations, no
tolerance check and no range reduction. -/
noncomputable def elements_to_state_E (M e : ℝ) : ℝ :=
  (List.range 10).foldl
    (fun E _ => E - (E - e * Real.sin E - M) / (1 - e * Real.cos E)) M

theorem foldl_const_iterate (f : ℝ → ℝ) (x : ℝ) (n : ℕ) :
    (List.range n).foldl (fun E _ => f E) x = f^[n] x := by
  induction n with
  | zero => rfl
  | succ n ih =>
    rw [List.range_succ, List.foldl_append, ih, List.foldl_cons, List.foldl_nil,
      Function.iterate_succ_apply']

end Kepler

/-- C3 counterexample: at `M = 2π`, `e = 0`, the inline solver of
`elements_to_state` returns `2π` (it does not range-reduce and is seeded at
the raw `M`), while the algorithm the claim describes — `solve_kepler` with
its source defaults `tol = 1e-10`, `max_iter = 50` — returns `0`. -/
theorem elements_to_state_E_ne_solve_kepler :
    elements_to_state_E (2 * Real.pi) 0 ≠ solve_kepler (2 * Real.pi) 0 1e-10 50 := by
  have hstep : ∀ E : ℝ,
      E - (E - 0 * Real.sin E - 2 * Real.pi) / (1 - 0 * Real.cos E) = 2 * Real.pi := by
    intro E
    simp
  have hL : elements_to_state_E (2 * Real.pi) 0 = 2 * Real.pi := by
    unfold elements_to_state_E
    rw [foldl_const_iterate, show (10 : ℕ) = 9 + 1 from rfl,
      Function.iterate_succ_apply']
    exact hstep _
  have hM : npMod (2 * Real.pi) (2 * Real.pi) = 0 := by
    unfold npMod
    rw [div_self Real.two_pi_pos.ne']
    norm_num
  have hR : solve_kepler (2 * Real.pi) 0 1e-10 50 = 0 := by
    unfold solve_kepler
    rw [hM]
    show solveKeplerLoop 0 0 1e-10 50 (if (0 : ℝ) < 0.8 then (0 : ℝ) else Real.pi) = 0
    rw [if_pos (by norm_num : (0 : ℝ) < 0.8), show (50 : ℕ) = 49 + 1 from rfl]
    simp only [solveKeplerLoop]
    norm_num
  rw [hL, hR]
  exact Real.two_pi_pos.ne'

/-- C3 (amended): the Kepler solve inside `elements_to_state` is exactly ten
unconditional Newton-Raphson iterations seeded at the raw mean anomaly `M`
— no `e < 0.8` seed branch, no tolerance-based early exit, no range
reduction — and it totalizes by returning the last iterate. -/
theorem elements_to_state_E_ten_newton (M e : ℝ) :
    elements_to_state_E M e
      = (fun E => E - (E - e * Real.sin E - M) / (1 - e * Real.cos E))^[10] M := by
  unfold elements_to_state_E
  exact foldl_const_iterate _ _ 10

section StateToElements

/-- `math.atan2(y, x)`: the two-argument arctangent with the IEEE
conventions used by Python (`atan2(0, 0) = 0`). -/
noncomputable def atan2 (y x : ℝ) : ℝ :=
  if 0 < x then Real.arctan (y / x)
  else if x < 0 then
    (if 0 ≤ y then Real.arctan (y / x) + Real.pi else Real.arctan (y / x) - Real.pi)
  else
    (if 0 < y then Real.pi / 2 else if y < 0 then -(Real.pi / 2) else 0)

open Classical in
/-- `state_to_elements(r, v, mu)` of `physics/elements.py`: returns the
tuple `(a, e, i, Ω, ω, M)` computed from angular momentum, node vector,
eccentricity vector, and vis-viva, with the source's branch structure
(`Nmag != 0`, `Nmag != 0 and e > 1e-10`, `e > 1e-10`). -/
noncomputable def state_to_elements (r v : Vec3) (mu : ℝ) :
    ℝ × ℝ × ℝ × ℝ × ℝ × ℝ :=
  let rmag := norm3 r
  let vmag := norm3 v
  let h := cross r v
  let hmag := norm3 h
  let i := Real.arccos (h.2.2 / hmag)
  let K : Vec3 := (0, 0, 1)
  let N := cross K h
  let Nmag := norm3 N
  let e_vec := (1 / mu) • ((vmag ^ 2 - mu / rmag) • r - dot r v • v)
  let e := norm3 e_vec
  let a := 1 / (2 / rmag - vmag ^ 2 / mu)
  let Omega := if Nmag ≠ 0 then atan2 N.2.1 N.1 else 0
  let omega := if Nmag ≠ 0 ∧ e > 1e-10 then
      atan2 (dot (cross N e_vec) h / hmag) (dot N e_vec / Nmag)
    else 0
  let nu := if e > 1e-10 then
      atan2 (dot (cross e_vec r) h / hmag) (dot e_vec r / (e * rmag))
    else atan2 r.2.1 r.1
  let E := 2 * atan2 (Real.tan (nu / 2)) (Real.sqrt ((1 + e) / (1 - e)))
  let M := E - e * Real.sin E
  (a, e, i, Omega, omega, M)

open Classical in
/-- The values that `state_to_elements(r, v, mu)` actually uses as
denominators, in execution order: `hmag` (inclination), `mu` and `rmag`
(eccentricity vector), `rmag`/`mu` and the vis-viva expression (semi-major
axis), then — only on the branches the source executes — `hmag`/`Nmag`
(argument of periapsis) and `hmag`/`e·rmag` (true anomaly), and finally the
`1 − e` factor of the eccentric-anomaly conversion. -/
noncomputable def state_to_elements_denoms (r v : Vec3) (mu : ℝ) : List ℝ :=
  let rmag := norm3 r
  let vmag := norm3 v
  let h := cross r v
  let hmag := norm3 h
  let K : Vec3 := (0, 0, 1)
  let N := cross K h
  let Nmag := norm3 N
  let e_vec := (1 / mu) • ((vmag ^ 2 - mu / rmag) • r - dot r v • v)
  let e := norm3 e_vec
  [hmag, mu, rmag, rmag, mu, 2 / rmag - vmag ^ 2 / mu]
    ++ (if Nmag ≠ 0 ∧ e > 1e-10 then [hmag, Nmag] else [])
    ++ (if e > 1e-10 then [hmag, e * rmag] else [])
    ++ [1 - e]

theorem norm3_zero : norm3 ((0 : ℝ), (0 : ℝ), (0 : ℝ)) = 0 := by
  unfold norm3 dot
  norm_num

end StateToElements

/-- C4 counterexample: at `r = (1,0,0)`, `v = (2,0,0)` (parallel position
and velocity), `μ = 1`, the angular-momentum magnitude is exactly `0` and
is still used as the denominator of the inclination computation — the
executed-denominator list of `state_to_elements` contains `0`, so not every
denominator is behind a magnitude guard. -/
theorem state_to_elements_zero_denominator :
    (0 : ℝ) ∈ state_to_elements_denoms (1, 0, 0) (2, 0, 0) 1 := by
  have hc : cross ((1 : ℝ), (0 : ℝ), (0 : ℝ)) ((2 : ℝ), (0 : ℝ), (0 : ℝ))
      = ((0 : ℝ), (0 : ℝ), (0 : ℝ)) := by
    unfold cross
    norm_num
  simp only [state_to_elements_denoms]
  rw [hc, norm3_zero]
  exact List.mem_cons_self 0 _

/-- C4 (amended): `state_to_elements` guards only the node-vector magnitude
(exact `Nmag ≠ 0` test) and the eccentricity (`e > 1e-10` threshold); the
angular-momentum magnitude, the radius, `μ`, the vis-viva denominator and
the `1 − e` factor are used as denominators with no guard. Consequently a
zero denominator is excluded only under the extra assumptions that those
five unguarded quantities are nonzero. -/
theorem state_to_elements_guarded_denoms (r v : Vec3) (mu : ℝ)
    (hh : norm3 (cross r v) ≠ 0) (hr : norm3 r ≠ 0) (hmu : mu ≠ 0)
    (hvv : 2 / norm3 r - norm3 v ^ 2 / mu ≠ 0)
    (he1 : 1 - norm3 ((1 / mu) • ((norm3 v ^ 2 - mu / norm3 r) • r - dot r v • v)) ≠ 0) :
    (0 : ℝ) ∉ state_to_elements_denoms r v mu := by
  simp only [state_to_elements_denoms]
  intro hmem
  rw [List.mem_append, List.mem_append, List.mem_append] at hmem
  rcases hmem with ((h6 | hg1) | hg2) | h1e
  · simp only [List.mem_cons, List.not_mem_nil, or_false] at h6
    rcases h6 with h | h | h | h | h | h
    · exact hh h.symm
    · exact hmu h.symm
    · exact hr h.symm
    · exact hr h.symm
    · exact hmu h.symm
    · exact hvv h.symm
  · by_cases hb : norm3 (cross ((0 : ℝ), (0 : ℝ), (1 : ℝ)) (cross r v)) ≠ 0
        ∧ norm3 ((1 / mu) • ((norm3 v ^ 2 - mu / norm3 r) • r - dot r v • v)) > 1e-10
    · rw [if_pos hb] at hg1
      simp only [List.mem_cons, List.not_mem_nil, or_false] at hg1
      rcases hg1 with h | h
      · exact hh h.symm
      · exact hb.1 h.symm
    · rw [if_neg hb] at hg1
      exact List.not_mem_nil _ hg1
  · by_cases hb : norm3 ((1 / mu) • ((norm3 v ^ 2 - mu / norm3 r) • r - dot r v • v)) > 1e-10
    · rw [if_pos hb] at hg2
      simp only [List.mem_cons, List.not_mem_nil, or_false] at hg2
      rcases hg2 with h | h
      · exact hh h.symm
      · exact mul_ne_zero (ne_of_gt (lt_trans (by norm_num) hb)) hr h.symm
    · rw [if_neg hb] at hg2
      exact List.not_mem_nil _ hg2
  · simp only [List.mem_cons, List.not_mem_nil, or_false] at h1e
    exact he1 h1e.symm

theorem norm3_zero_vec : norm3 (0 : Vec3) = 0 := norm3_zero

/-- Witness for the amended C4 at `r = (1,0,0)`, `v = (0,1,0)`, `μ = 1`: all
five unguarded quantities are nonzero there, and no executed denominator is
zero. -/
theorem state_to_elements_guarded_denoms_witness :
    (norm3 (cross ((1 : ℝ), (0 : ℝ), (0 : ℝ)) ((0 : ℝ), (1 : ℝ), (0 : ℝ))) ≠ 0
      ∧ norm3 ((1 : ℝ), (0 : ℝ), (0 : ℝ)) ≠ 0
      ∧ (1 : ℝ) ≠ 0
      ∧ 2 / norm3 ((1 : ℝ), (0 : ℝ), (0 : ℝ))
          - norm3 ((0 : ℝ), (1 : ℝ), (0 : ℝ)) ^ 2 / 1 ≠ 0
      ∧ 1 - norm3 ((1 / (1 : ℝ)) •
          ((norm3 ((0 : ℝ), (1 : ℝ), (0 : ℝ)) ^ 2 - 1 / norm3 ((1 : ℝ), (0 : ℝ), (0 : ℝ)))
              • ((1 : ℝ), (0 : ℝ), (0 : ℝ))
            - dot ((1 : ℝ), (0 : ℝ), (0 : ℝ)) ((0 : ℝ), (1 : ℝ), (0 : ℝ))
              • ((0 : ℝ), (1 : ℝ), (0 : ℝ)))) ≠ 0)
    ∧ (0 : ℝ) ∉ state_to_elements_denoms (1, 0, 0) (0, 1, 0) 1 := by
  have hr : norm3 ((1 : ℝ), (0 : ℝ), (0 : ℝ)) = 1 := by
    unfold norm3 dot
    norm_num
  have hv : norm3 ((0 : ℝ), (1 : ℝ), (0 : ℝ)) = 1 := by
    unfold norm3 dot
    norm_num
  have hcr : cross ((1 : ℝ), (0 : ℝ), (0 : ℝ)) ((0 : ℝ), (1 : ℝ), (0 : ℝ))
      = ((0 : ℝ), (0 : ℝ), (1 : ℝ)) := by
    unfold cross
    norm_num
  have hh : norm3 (cross ((1 : ℝ), (0 : ℝ), (0 : ℝ)) ((0 : ℝ), (1 : ℝ), (0 : ℝ))) = 1 := by
    rw [hcr]
    unfold norm3 dot
    norm_num
  have hdot : dot ((1 : ℝ), (0 : ℝ), (0 : ℝ)) ((0 : ℝ), (1 : ℝ), (0 : ℝ)) = 0 := by
    unfold dot
    norm_num
  have hev : ((1 / (1 : ℝ)) •
      ((norm3 ((0 : ℝ), (1 : ℝ), (0 : ℝ)) ^ 2 - 1 / norm3 ((1 : ℝ), (0 : ℝ), (0 : ℝ)))
          • ((1 : ℝ), (0 : ℝ), (0 : ℝ))
        - dot ((1 : ℝ), (0 : ℝ), (0 : ℝ)) ((0 : ℝ), (1 : ℝ), (0 : ℝ))
          • ((0 : ℝ), (1 : ℝ), (0 : ℝ)))) = (0 : Vec3) := by
    rw [hv, hr, hdot]
    norm_num
  have p1 : norm3 (cross ((1 : ℝ), (0 : ℝ), (0 : ℝ)) ((0 : ℝ), (1 : ℝ), (0 : ℝ))) ≠ 0 := by
    rw [hh]
    norm_num
  have p2 : norm3 ((1 : ℝ), (0 : ℝ), (0 : ℝ)) ≠ 0 := by
    rw [hr]
    norm_num
  have p3 : (1 : ℝ) ≠ 0 := one_ne_zero
  have p4 : 2 / norm3 ((1 : ℝ), (0 : ℝ), (0 : ℝ))
      - norm3 ((0 : ℝ), (1 : ℝ), (0 : ℝ)) ^ 2 / 1 ≠ 0 := by
    rw [hr, hv]
    norm_num
  have p5 : 1 - norm3 ((1 / (1 : ℝ)) •
      ((norm3 ((0 : ℝ), (1 : ℝ), (0 : ℝ)) ^ 2 - 1 / norm3 ((1 : ℝ), (0 : ℝ), (0 : ℝ)))
          • ((1 : ℝ), (0 : ℝ), (0 : ℝ))
        - dot ((1 : ℝ), (0 : ℝ), (0 : ℝ)) ((0 : ℝ), (1 : ℝ), (0 : ℝ))
          • ((0 : ℝ), (1 : ℝ), (0 : ℝ)))) ≠ 0 := by
    rw [hev, norm3_zero_vec]
    norm_num
  exact ⟨⟨p1, p2, p3, p4, p5⟩,
    state_to_elements_guarded_denoms (1, 0, 0) (0, 1, 0) 1 p1 p2 p3 p4 p5⟩

/-- C9: on a perfectly circular (`e⃗ = 0`), equatorial (`h` along `+ẑ`,
nonzero) state, `state_to_elements` returns `Ω = 0` and `ω = 0`, with the
mean anomaly still well-defined from the fallback branch that measures the
angle of the position vector directly in the equatorial plane
(`ν = atan2(r_y, r_x)`, `M = E = 2·atan2(tan(ν/2), 1)`); being a total
function of the state, it raises nothing. -/
theorem state_to_elements_degenerate_orbit (r v : Vec3) (mu : ℝ)
    (hx : (cross r v).1 = 0) (hy : (cross r v).2.1 = 0) (hz : 0 < (cross r v).2.2)
    (hev : (1 / mu) • ((norm3 v ^ 2 - mu / norm3 r) • r - dot r v • v) = 0) :
    (state_to_elements r v mu).2.2.2.1 = 0
    ∧ (state_to_elements r v mu).2.2.2.2.1 = 0
    ∧ (state_to_elements r v mu).2.2.2.2.2
        = 2 * atan2 (Real.tan (atan2 r.2.1 r.1 / 2)) 1 := by
  have hN : cross ((0 : ℝ), (0 : ℝ), (1 : ℝ)) (cross r v) = (0 : Vec3) := by
    have hrep : cross ((0 : ℝ), (0 : ℝ), (1 : ℝ)) (cross r v)
        = (0 * (cross r v).2.2 - 1 * (cross r v).2.1,
           1 * (cross r v).1 - 0 * (cross r v).2.2,
           0 * (cross r v).2.1 - 0 * (cross r v).1) := rfl
    rw [hrep, hx, hy]
    norm_num
  have hNmag : norm3 (cross ((0 : ℝ), (0 : ℝ), (1 : ℝ)) (cross r v)) = 0 := by
    rw [hN, norm3_zero_vec]
  have he : norm3 ((1 / mu) • ((norm3 v ^ 2 - mu / norm3 r) • r - dot r v • v)) = 0 := by
    rw [hev, norm3_zero_vec]
  refine ⟨?_, ?_, ?_⟩
  · simp only [state_to_elements]
    rw [hNmag]
    simp
  · simp only [state_to_elements]
    rw [hNmag]
    simp
  · simp only [state_to_elements]
    rw [he]
    norm_num [Real.sqrt_one]

/-- Witness for C9 at the circular equatorial state `r = (1,0,0)`,
`v = (0,1,0)`, `μ = 1`. -/
theorem state_to_elements_degenerate_orbit_witness :
    ((cross ((1 : ℝ), (0 : ℝ), (0 : ℝ)) ((0 : ℝ), (1 : ℝ), (0 : ℝ))).1 = 0
      ∧ (cross ((1 : ℝ), (0 : ℝ), (0 : ℝ)) ((0 : ℝ), (1 : ℝ), (0 : ℝ))).2.1 = 0
      ∧ 0 < (cross ((1 : ℝ), (0 : ℝ), (0 : ℝ)) ((0 : ℝ), (1 : ℝ), (0 : ℝ))).2.2
      ∧ (1 / (1 : ℝ)) •
          ((norm3 ((0 : ℝ), (1 : ℝ), (0 : ℝ)) ^ 2 - 1 / norm3 ((1 : ℝ), (0 : ℝ), (0 : ℝ)))
              • ((1 : ℝ), (0 : ℝ), (0 : ℝ))
            - dot ((1 : ℝ), (0 : ℝ), (0 : ℝ)) ((0 : ℝ), (1 : ℝ), (0 : ℝ))
              • ((0 : ℝ), (1 : ℝ), (0 : ℝ))) = (0 : Vec3))
    ∧ ((state_to_elements (1, 0, 0) (0, 1, 0) 1).2.2.2.1 = 0
      ∧ (state_to_elements (1, 0, 0) (0, 1, 0) 1).2.2.2.2.1 = 0
      ∧ (state_to_elements (1, 0, 0) (0, 1, 0) 1).2.2.2.2.2
          = 2 * atan2 (Real.tan (atan2 0 1 / 2)) 1) := by
  have hx : (cross ((1 : ℝ), (0 : ℝ), (0 : ℝ)) ((0 : ℝ), (1 : ℝ), (0 : ℝ))).1 = 0 := by
    unfold cross
    norm_num
  have hy : (cross ((1 : ℝ), (0 : ℝ), (0 : ℝ)) ((0 : ℝ), (1 : ℝ), (0 : ℝ))).2.1 = 0 := by
    unfold cross
    norm_num
  have hz : 0 < (cross ((1 : ℝ), (0 : ℝ), (0 : ℝ)) ((0 : ℝ), (1 : ℝ), (0 : ℝ))).2.2 := by
    unfold cross
    norm_num
  have hr : norm3 ((1 : ℝ), (0 : ℝ), (0 : ℝ)) = 1 := by
    unfold norm3 dot
    norm_num
  have hv : norm3 ((0 : ℝ), (1 : ℝ), (0 : ℝ)) = 1 := by
    unfold norm3 dot
    norm_num
  have hdot : dot ((1 : ℝ), (0 : ℝ), (0 : ℝ)) ((0 : ℝ), (1 : ℝ), (0 : ℝ)) = 0 := by
    unfold dot
    norm_num
  have hev : (1 / (1 : ℝ)) •
      ((norm3 ((0 : ℝ), (1 : ℝ), (0 : ℝ)) ^ 2 - 1 / norm3 ((1 : ℝ), (0 : ℝ), (0 : ℝ)))
          • ((1 : ℝ), (0 : ℝ), (0 : ℝ))
        - dot ((1 : ℝ), (0 : ℝ), (0 : ℝ)) ((0 : ℝ), (1 : ℝ), (0 : ℝ))
          • ((0 : ℝ), (1 : ℝ), (0 : ℝ))) = (0 : Vec3) := by
    rw [hv, hr, hdot]
    norm_num
  exact ⟨⟨hx, hy, hz, hev⟩,
    state_to_elements_degenerate_orbit (1, 0, 0) (0, 1, 0) 1 hx hy hz hev⟩

end Solara
